import Mathlib

/-!
Verification of the process-tree cwd resolution core of
`jupyterlab_terminal_show_in_file_browser_extension/handlers.py`.

Python strings are modelled as Lean `String`; the string operations the
handler uses (`str.strip`, `os.path.basename`, `str.startswith`,
splitting on a one-character separator, slicing) are defined over the
character list `String.data`, matching Python's sequence-of-characters
semantics.  OS probes (reading `/proc` files, running `ps`, `pgrep`,
`lsof`, `readlink`) are modelled as fields of an `OS` structure giving
each probe's observed answer; a probe that fails (missing process,
permission error, timeout, tool exception) answers `none`, which is
exactly how the Python code treats every such failure (`try/except`
returning `None`).  Python's unbounded recursion over the process tree
is modelled with an explicit `fuel` parameter; every claim about the
traversal assumes enough fuel.
-/

namespace TerminalCwd

/-- Python `str.strip()` on a character list: drop leading and trailing
whitespace. -/
def stripChars (l : List Char) : List Char :=
  ((l.dropWhile Char.isWhitespace).reverse.dropWhile Char.isWhitespace).reverse

/-- Python `str.strip()`. -/
def strip (s : String) : String :=
  String.mk (stripChars s.data)

/-- POSIX `os.path.basename` on a character list: the suffix after the
last path separator. -/
def basenameChars (l : List Char) : List Char :=
  l.foldl (fun acc c => if c = '/' then [] else acc ++ [c]) []

/-- POSIX `os.path.basename`. -/
def basename (s : String) : String :=
  String.mk (basenameChars s.data)

/-- Python `str.startswith` on character lists. -/
def startsWithChars : List Char → List Char → Bool
  | [], _ => true
  | _ :: _, [] => false
  | p :: ps, c :: cs => p == c && startsWithChars ps cs

/-- Python `str.split(sep)` (and `bytes.split(sep)`) for a one-character
separator: splitting the empty string yields one empty piece, exactly as
in Python. -/
def splitOnChar (sep : Char) : List Char → List (List Char)
  | [] => [[]]
  | c :: cs =>
    match splitOnChar sep cs with
    | [] => [[]]
    | h :: t => if c == sep then [] :: h :: t else (c :: h) :: t

/-- The value of Python `sys.platform` as the handler discriminates it. -/
inductive Platform
  | linux
  | darwin
  | other
deriving DecidableEq

/-- Observable OS state during one query: the answer each raw OS probe
would give.  `none` models every failure the Python code swallows with
`try/except` (missing `/proc` entry, permission error, tool exception or
timeout).  For `ps` and `lsof`, `some (rc, out)` is the tool's exit code
and standard output. -/
structure OS where
  platform : Platform
  /-- Content of `/proc/pid/comm` (raw, before stripping). -/
  commFile : Nat → Option String
  /-- Result of running `ps -p pid -o comm=`. -/
  ps : Nat → Option (Nat × String)
  /-- Direct children of a PID, as `_get_direct_children` reports them
  (an OS enumeration primitive per the spec; failures give `[]`). -/
  children : Nat → List Nat
  /-- Result of `os.readlink` on `/proc/pid/cwd`. -/
  cwdLink : Nat → Option String
  /-- Raw content of `/proc/pid/environ` (null-separated entries). -/
  environ : Nat → Option String
  /-- Result of running `lsof -a -p pid -d cwd -Fn`. -/
  lsof : Nat → Option (Nat × String)

/-- The fixed shell set of `_get_process_cwd` (line 95). -/
def known_shells : List String :=
  ["bash", "zsh", "fish", "sh", "dash", "ksh", "tcsh", "csh"]

/-- Model of `_get_process_comm` (lines 141-169): on Linux, the stripped content of
`/proc/pid/comm`; otherwise the basename of the stripped `ps` output when
the exit code is 0 and the stripped output is nonempty; `None` on any
failure. -/
def get_process_comm (os : OS) (pid : Nat) : Option String :=
  match os.platform with
  | .linux =>
    match os.commFile pid with
    | some content => some (strip content)
    | none => none
  | _ =>
    match os.ps pid with
    | some (rc, out) =>
      if rc = 0 ∧ strip out ≠ "" then some (basename (strip out)) else none
    | none => none

/-- Shell classification `is_shell = comm in known_shells if comm else False`
(`_collect_process_tree`, line 132): a falsy comm (`None` or the empty
string) is never shell-like. -/
def is_shell_of (comm : Option String) : Bool :=
  match comm with
  | none => false
  | some c => if c = "" then false else decide (c ∈ known_shells)

/-- One collected tree node: the `(pid, depth, is_shell, comm)` tuple of
`_collect_process_tree`. -/
structure PNode where
  pid : Nat
  depth : Nat
  is_shell : Bool
  comm : Option String
deriving DecidableEq

/-- Model of `_collect_process_tree` (lines 115-139): append the node for `pid`,
then recurse into each direct child at `depth + 1` in enumeration order.
The Python recursion is unbounded; `fuel` bounds it in the model and
every statement about the traversal assumes `0 < fuel` at each level. -/
def collect_process_tree (os : OS) (fuel pid depth : Nat) : List PNode :=
  match fuel with
  | 0 => []
  | f + 1 =>
    ⟨pid, depth, is_shell_of (get_process_comm os pid), get_process_comm os pid⟩ ::
      (os.children pid).flatMap (fun c => collect_process_tree os f c (depth + 1))

/-- The sort key comparison of `all_processes.sort(key=lambda x: (-x[1], not x[2]))`
(line 104): `key_le a b` holds when the tuple `(-a.depth, not a.is_shell)`
is lexicographically at most `(-b.depth, not b.is_shell)`. -/
def key_le (a b : PNode) : Bool :=
  decide (b.depth < a.depth) || (decide (a.depth = b.depth) && (a.is_shell || !b.is_shell))

/-- Stable ordered insertion: a new element (later in the original list)
is placed after every existing element whose key is at most its own. -/
def sort_insert (a : PNode) : List PNode → List PNode
  | [] => [a]
  | b :: l => if key_le a b then a :: b :: l else b :: sort_insert a l

/-- Model of `list.sort(key=lambda x: (-x[1], not x[2]))` (line 104): Python's
`list.sort` is a stable ascending sort by the key, modelled as a stable
insertion sort over `key_le`. -/
def rank (l : List PNode) : List PNode :=
  l.foldr sort_insert []

/-- Model of `_get_cwd_linux` (lines 239-254): the `readlink` probe's answer, with
every failure already collapsed to `none` by the probe model. -/
def get_cwd_linux (os : OS) (pid : Nat) : Option String :=
  os.cwdLink pid

/-- Model of `_get_pwd_from_environ` (lines 256-276): split the environment block
on null bytes and return the value of the first `PWD=` entry. -/
def get_pwd_from_environ (os : OS) (pid : Nat) : Option String :=
  match os.environ pid with
  | none => none
  | some data =>
    (splitOnChar (Char.ofNat 0) data.data).findSome? (fun entry =>
      if startsWithChars ['P', 'W', 'D', '='] entry then
        some (String.mk (entry.drop 4))
      else none)

/-- Model of `_get_cwd_macos` (lines 278-300): when `lsof` exits 0, return the
first output line starting with the character `n`, with that prefix
character removed; otherwise `None`. -/
def get_cwd_macos (os : OS) (pid : Nat) : Option String :=
  match os.lsof pid with
  | none => none
  | some (rc, out) =>
    if rc = 0 then
      (splitOnChar '\n' out.data).findSome? (fun line =>
        match line with
        | [] => none
        | c :: rest => if c = 'n' then some (String.mk rest) else none)
    else none

/-- Model of `_try_get_cwd` (lines 210-237): platform-conditional strategy order.
Linux: `/proc` symlink, then `PWD` from the environment; macOS: `lsof`
only; anything else: the Linux strategies. -/
def try_get_cwd (os : OS) (pid : Nat) : Option String :=
  match os.platform with
  | .linux =>
    match get_cwd_linux os pid with
    | some c => some c
    | none => get_pwd_from_environ os pid
  | .darwin => get_cwd_macos os pid
  | .other =>
    match get_cwd_linux os pid with
    | some c => some c
    | none => get_pwd_from_environ os pid

/-- The candidate loop of `_get_process_cwd` (lines 107-110): Python's
`if cwd:` accepts only a truthy value, so a candidate answering `None` or
the empty string is skipped. -/
def first_truthy (os : OS) : List PNode → Option String
  | [] => none
  | n :: rest =>
    match try_get_cwd os n.pid with
    | some s => if s = "" then first_truthy os rest else some s
    | none => first_truthy os rest

/-- Model of `_get_process_cwd` (lines 77-113): collect the tree, rank it, take the
first truthy candidate answer, and otherwise fall back to one direct
`_try_get_cwd` on the root pid whose result is returned unchecked. -/
def get_process_cwd (os : OS) (fuel pid : Nat) : Option String :=
  match first_truthy os (rank (collect_process_tree os fuel pid 0)) with
  | some s => some s
  | none => try_get_cwd os pid

/-- The ranking example of the spec: nodes
`(100,0,false,terminado), (101,1,true,fish), (102,2,false,mc), (103,3,true,bash)`. -/
def c1_input : List PNode :=
  [⟨100, 0, false, some "terminado"⟩, ⟨101, 1, true, some "fish"⟩,
   ⟨102, 2, false, some "mc"⟩, ⟨103, 3, true, some "bash"⟩]

/-- End-to-end scenario OS: Linux, root 100 (`terminado`) with single
child 200 (`bash`); the child's `/proc` cwd symlink resolves to
`/home/test` while every probe of the root fails. -/
def os_c2 : OS where
  platform := .linux
  commFile := fun p => if p = 100 then some "terminado" else if p = 200 then some "bash" else none
  ps := fun _ => none
  children := fun p => if p = 100 then [200] else []
  cwdLink := fun p => if p = 200 then some "/home/test" else none
  environ := fun _ => none
  lsof := fun _ => none

/-- Linux OS in which the deepest-ranked candidate (child 200) resolves
to the empty string via an empty `PWD=` environment entry, while the root
resolves to `/root`. -/
def os_c2x : OS where
  platform := .linux
  commFile := fun p => if p = 100 then some "terminado" else if p = 200 then some "bash" else none
  ps := fun _ => none
  children := fun p => if p = 100 then [200] else []
  cwdLink := fun p => if p = 100 then some "/root" else none
  environ := fun p => if p = 200 then some "PWD=" else none
  lsof := fun _ => none

/-- Linux OS whose `/proc/7/comm` content contains a path separator. -/
def os_c5 : OS where
  platform := .linux
  commFile := fun p => if p = 7 then some "foo/bar\n" else none
  ps := fun _ => none
  children := fun _ => []
  cwdLink := fun _ => none
  environ := fun _ => none
  lsof := fun _ => none

/-- macOS OS in which `ps` reports a full path for pid 3. -/
def os_c5b : OS where
  platform := .darwin
  commFile := fun _ => none
  ps := fun p => if p = 3 then some (0, " /bin/zsh\n") else none
  children := fun _ => []
  cwdLink := fun _ => none
  environ := fun _ => none
  lsof := fun _ => none

/-- OS on which every cwd probe fails for every pid. -/
def os_absent : OS where
  platform := .linux
  commFile := fun _ => none
  ps := fun _ => none
  children := fun _ => []
  cwdLink := fun _ => none
  environ := fun _ => none
  lsof := fun _ => none

/-- macOS OS where `lsof` for pid 1 exits 0 with output consisting of the
single line `n`, so the parsed cwd is the empty string. -/
def os_c9 : OS where
  platform := .darwin
  commFile := fun _ => none
  ps := fun _ => none
  children := fun _ => []
  cwdLink := fun _ => none
  environ := fun _ => none
  lsof := fun p => if p = 1 then some (0, "n") else none

/-- Propositional reading of the sort-key comparison. -/
theorem key_le_iff (a b : PNode) :
    key_le a b = true ↔
      b.depth < a.depth ∨ (a.depth = b.depth ∧ (a.is_shell = true ∨ b.is_shell = false)) := by
  cases ha : a.is_shell <;> cases hb : b.is_shell <;> simp [key_le, ha, hb]

/-- The sort-key comparison is total. -/
theorem key_le_total (a b : PNode) : key_le a b = true ∨ key_le b a = true := by
  rw [key_le_iff, key_le_iff]
  rcases Nat.lt_trichotomy a.depth b.depth with h | h | h
  · right; left; exact h
  · rcases Bool.eq_false_or_eq_true a.is_shell with ha | ha
    · left; right; exact ⟨h, Or.inl ha⟩
    · right; right; exact ⟨h.symm, Or.inr ha⟩
  · left; left; exact h

/-- The sort-key comparison is transitive. -/
theorem key_le_trans {a b c : PNode} (h1 : key_le a b = true) (h2 : key_le b c = true) :
    key_le a c = true := by
  rw [key_le_iff] at h1 h2 ⊢
  rcases h1 with h1 | ⟨h1, h1s⟩ <;> rcases h2 with h2 | ⟨h2, h2s⟩
  · left; omega
  · left; omega
  · left; omega
  · refine Or.inr ⟨by omega, ?_⟩
    rcases h1s with hs | hs
    · exact Or.inl hs
    · rcases h2s with hs2 | hs2
      · rw [hs] at hs2
        exact absurd hs2 Bool.false_ne_true
      · exact Or.inr hs2

/-- Membership in an ordered insertion. -/
theorem mem_sort_insert {x a : PNode} {l : List PNode} :
    x ∈ sort_insert a l ↔ x = a ∨ x ∈ l := by
  induction l with
  | nil => simp [sort_insert]
  | cons b l ih =>
    by_cases h : key_le a b = true
    · simp [sort_insert, h]
    · simp only [sort_insert, if_neg h, List.mem_cons, ih]
      tauto

/-- Ordered insertion preserves sortedness. -/
theorem pairwise_sort_insert {a : PNode} {l : List PNode}
    (h : l.Pairwise (fun x y => key_le x y = true)) :
    (sort_insert a l).Pairwise (fun x y => key_le x y = true) := by
  induction l with
  | nil => simp [sort_insert]
  | cons b l ih =>
    rcases List.pairwise_cons.mp h with ⟨hb, hl⟩
    by_cases hab : key_le a b = true
    · simp only [sort_insert, if_pos hab]
      refine List.pairwise_cons.mpr ⟨?_, h⟩
      intro x hx
      rcases List.mem_cons.mp hx with rfl | hx
      · exact hab
      · exact key_le_trans hab (hb x hx)
    · simp only [sort_insert, if_neg hab]
      refine List.pairwise_cons.mpr ⟨?_, ih hl⟩
      intro x hx
      rcases mem_sort_insert.mp hx with hxa | hx
      · rw [hxa]
        rcases key_le_total a b with h1 | h1
        · exact absurd h1 hab
        · exact h1
      · exact hb x hx

/-- The ranked list is sorted with respect to the key comparison. -/
theorem sorted_rank (l : List PNode) :
    (rank l).Pairwise (fun x y => key_le x y = true) := by
  induction l with
  | nil => simp [rank]
  | cons a l ih =>
    show (sort_insert a (rank l)).Pairwise (fun x y => key_le x y = true)
    exact pairwise_sort_insert ih

/-- Ordered insertion is a permutation of consing. -/
theorem sort_insert_perm (a : PNode) (l : List PNode) : List.Perm (sort_insert a l) (a :: l) := by
  induction l with
  | nil => exact List.Perm.refl _
  | cons b l ih =>
    simp only [sort_insert]
    split
    · exact List.Perm.refl _
    · exact (ih.cons b).trans (List.Perm.swap a b l)

/-- Ranking permutes the collected nodes. -/
theorem rank_perm (l : List PNode) : List.Perm (rank l) l := by
  induction l with
  | nil => exact List.Perm.refl _
  | cons a l ih =>
    show List.Perm (sort_insert a (rank l)) (a :: l)
    exact (sort_insert_perm a (rank l)).trans (ih.cons a)

/-- Ordered insertion is stable: filtering by a predicate whose members
are mutually key-equivalent commutes with insertion. -/
theorem filter_sort_insert (p : PNode → Bool)
    (hkey : ∀ x y, p x = true → p y = true → key_le x y = true)
    (a : PNode) (l : List PNode) :
    (sort_insert a l).filter p = if p a = true then a :: l.filter p else l.filter p := by
  induction l with
  | nil => cases h : p a <;> simp [sort_insert, List.filter_cons, h]
  | cons b l ih =>
    by_cases hab : key_le a b = true
    · simp only [sort_insert, if_pos hab, List.filter_cons]
    · simp only [sort_insert, if_neg hab, List.filter_cons, ih]
      by_cases hpb : p b = true
      · have hpa : ¬ p a = true := fun hpa => hab (hkey a b hpa hpb)
        simp [hpb, hpa]
      · simp [hpb]

/-- Ranking is stable on key-equivalent node classes. -/
theorem rank_filter (p : PNode → Bool)
    (hkey : ∀ x y, p x = true → p y = true → key_le x y = true) :
    ∀ l : List PNode, (rank l).filter p = l.filter p := by
  intro l
  induction l with
  | nil => rfl
  | cons a l ih =>
    show (sort_insert a (rank l)).filter p = _
    rw [filter_sort_insert p hkey, List.filter_cons, ih]

/-- Auxiliary foldl invariant for `basenameChars`. -/
theorem slash_not_mem_basename_go (l : List Char) :
    ∀ acc : List Char, '/' ∉ acc →
      '/' ∉ l.foldl (fun acc c => if c = '/' then [] else acc ++ [c]) acc := by
  induction l with
  | nil =>
    intro acc hacc
    simpa using hacc
  | cons c cs ih =>
    intro acc hacc
    simp only [List.foldl_cons]
    apply ih
    by_cases hc : c = '/'
    · simp [hc]
    · rw [if_neg hc]
      intro h
      rcases List.mem_append.mp h with h1 | h1
      · exact hacc h1
      · rw [List.mem_singleton] at h1
        exact hc h1.symm

/-- A POSIX basename never contains a path separator. -/
theorem slash_not_mem_basenameChars (l : List Char) : '/' ∉ basenameChars l :=
  slash_not_mem_basename_go l [] (by simp)

/-- Characterization of the shell classification. -/
theorem is_shell_of_iff (comm : Option String) :
    is_shell_of comm = true ↔ ∃ c, comm = some c ∧ c ∈ known_shells := by
  cases comm with
  | none => simp [is_shell_of]
  | some c =>
    by_cases hc : c = ""
    · subst hc
      constructor
      · intro h
        simp [is_shell_of] at h
      · rintro ⟨d, hd, hmem⟩
        rw [Option.some_inj] at hd
        subst hd
        exact absurd hmem (by decide)
    · simp [is_shell_of, hc]

/-- Every collected node's shell flag is the classification of its comm. -/
theorem mem_collect_is_shell (os : OS) :
    ∀ (fuel pid d : Nat) (n : PNode),
      n ∈ collect_process_tree os fuel pid d → n.is_shell = is_shell_of n.comm := by
  intro fuel
  induction fuel with
  | zero =>
    intro pid d n h
    simp [collect_process_tree] at h
  | succ f ih =>
    intro pid d n h
    simp only [collect_process_tree] at h
    rcases List.mem_cons.mp h with rfl | h
    · rfl
    · rcases List.mem_flatMap.mp h with ⟨c, hc, hn⟩
      exact ih c (d + 1) n hn

/-- No collected node is shallower than the start depth. -/
theorem mem_collect_depth (os : OS) :
    ∀ (fuel pid d : Nat) (n : PNode),
      n ∈ collect_process_tree os fuel pid d → d ≤ n.depth := by
  intro fuel
  induction fuel with
  | zero =>
    intro pid d n h
    simp [collect_process_tree] at h
  | succ f ih =>
    intro pid d n h
    simp only [collect_process_tree] at h
    rcases List.mem_cons.mp h with rfl | h
    · exact Nat.le_refl d
    · rcases List.mem_flatMap.mp h with ⟨c, hc, hn⟩
      have := ih c (d + 1) n hn
      omega

/-- If every candidate's probe answers `none`, the loop finds nothing. -/
theorem first_truthy_eq_none (os : OS) :
    ∀ l : List PNode, (∀ n ∈ l, try_get_cwd os n.pid = none) → first_truthy os l = none := by
  intro l
  induction l with
  | nil => intro _; rfl
  | cons n rest ih =>
    intro h
    simp only [first_truthy]
    rw [h n (List.mem_cons_self n rest)]
    exact ih (fun m hm => h m (List.mem_cons_of_mem n hm))

/-- On a non-Linux platform, `_get_process_comm` is the `ps` branch. -/
theorem get_process_comm_ps (os : OS) (pid : Nat) (hp : os.platform ≠ .linux) :
    get_process_comm os pid =
      match os.ps pid with
      | some (rc, out) =>
        if rc = 0 ∧ strip out ≠ "" then some (basename (strip out)) else none
      | none => none := by
  unfold get_process_comm
  cases hplat : os.platform with
  | linux => exact absurd hplat hp
  | darwin => rfl
  | other => rfl

/-- Claim C1: `rank` produces a total order over the collected nodes with
key `(-depth, not isShellLike)`: along the ranked sequence depth never
increases, at equal depth a shell-like node never follows a non-shell
node, the ranked sequence is a permutation of the input, and on the
example input `[(100,0,false), (101,1,true), (102,2,false), (103,3,true)]`
the ranked PID order is `[103, 102, 101, 100]`. -/
theorem rank_total_order :
    (∀ l : List PNode,
        (rank l).Pairwise (fun a b =>
          b.depth ≤ a.depth ∧ (a.depth = b.depth → b.is_shell = true → a.is_shell = true)))
    ∧ (∀ l : List PNode, List.Perm (rank l) l)
    ∧ (rank c1_input).map PNode.pid = [103, 102, 101, 100] := by
  refine ⟨?_, rank_perm, by decide⟩
  intro l
  refine (sorted_rank l).imp ?_
  intro a b hab
  rw [key_le_iff] at hab
  constructor
  · rcases hab with h | ⟨h, _⟩
    · omega
    · omega
  · intro hd hb
    rcases hab with h | ⟨_, hs⟩
    · omega
    · rcases hs with hs | hs
      · exact hs
      · rw [hb] at hs
        exact Bool.noConfusion hs

/-- Claim C1 witness: the concrete ranking example. -/
theorem rank_total_order_witness :
    (rank c1_input).map PNode.pid = [103, 102, 101, 100] :=
  rank_total_order.2.2

/-- Claim C2 counterexample: on `os_c2x` the first-ranked candidate is
pid 200 and its `resolveOne` answer is the non-absent empty string, yet
the orchestrator does not return that first non-absent result: it skips
it and returns the root's `/root` instead. -/
theorem get_process_cwd_c2_counterexample :
    (rank (collect_process_tree os_c2x 2 100 0)).map PNode.pid = [200, 100]
    ∧ try_get_cwd os_c2x 200 = some ""
    ∧ get_process_cwd os_c2x 2 100 = some "/root"
    ∧ get_process_cwd os_c2x 2 100 ≠ try_get_cwd os_c2x 200 :=
  ⟨by decide, by decide, by decide, by decide⟩

/-- Claim C2 (amended): the orchestrator returns the first ranked
candidate whose `resolveOne` answer is non-absent and non-empty, skipping
candidates whose answer is absent or the empty string; if no candidate
qualifies it returns one final unchecked `resolveOne` attempt on the root
pid.  The end-to-end `/home/test` child-fallthrough scenario holds. -/
theorem get_process_cwd_spec :
    (∀ (os : OS) (fuel pid : Nat),
        get_process_cwd os fuel pid =
          match first_truthy os (rank (collect_process_tree os fuel pid 0)) with
          | some s => some s
          | none => try_get_cwd os pid)
    ∧ (∀ (os : OS) (n : PNode) (rest : List PNode) (s : String),
        try_get_cwd os n.pid = some s → s ≠ "" →
          first_truthy os (n :: rest) = some s)
    ∧ (∀ (os : OS) (n : PNode) (rest : List PNode),
        try_get_cwd os n.pid = none ∨ try_get_cwd os n.pid = some "" →
          first_truthy os (n :: rest) = first_truthy os rest)
    ∧ get_process_cwd os_c2 2 100 = some "/home/test" := by
  refine ⟨fun os fuel pid => rfl, ?_, ?_, by decide⟩
  · intro os n rest s hs hne
    simp only [first_truthy, hs]
    rw [if_neg hne]
  · intro os n rest h
    rcases h with h | h
    · simp only [first_truthy, h]
    · simp only [first_truthy, h]
      simp

/-- Claim C2 witness: the loop applied to the qualified child candidate. -/
theorem get_process_cwd_spec_witness :
    first_truthy os_c2 [⟨200, 1, true, some "bash"⟩] = some "/home/test" :=
  get_process_cwd_spec.2.1 os_c2 ⟨200, 1, true, some "bash"⟩ [] "/home/test"
    (by decide) (by decide)

/-- Claim C3: with fuel available, `collect` visits the root first at the
start depth (whatever its comm resolves to), appends each node before its
children, recurses over the direct children in enumeration order at
depth + 1, and never produces a node shallower than the start depth. -/
theorem collect_process_tree_spec :
    (∀ (os : OS) (fuel pid d : Nat), 0 < fuel →
        collect_process_tree os fuel pid d =
          ⟨pid, d, is_shell_of (get_process_comm os pid), get_process_comm os pid⟩ ::
            (os.children pid).flatMap
              (fun c => collect_process_tree os (fuel - 1) c (d + 1)))
    ∧ (∀ (os : OS) (fuel pid : Nat), 0 < fuel →
        (collect_process_tree os fuel pid 0).head? =
          some ⟨pid, 0, is_shell_of (get_process_comm os pid), get_process_comm os pid⟩)
    ∧ (∀ (os : OS) (fuel pid d : Nat) (n : PNode),
        n ∈ collect_process_tree os fuel pid d → d ≤ n.depth) := by
  have h1 : ∀ (os : OS) (fuel pid d : Nat), 0 < fuel →
      collect_process_tree os fuel pid d =
        ⟨pid, d, is_shell_of (get_process_comm os pid), get_process_comm os pid⟩ ::
          (os.children pid).flatMap
            (fun c => collect_process_tree os (fuel - 1) c (d + 1)) := by
    intro os fuel pid d hf
    cases fuel with
    | zero => exact absurd hf (Nat.lt_irrefl 0)
    | succ f => rfl
  refine ⟨h1, ?_, mem_collect_depth⟩
  intro os fuel pid hf
  rw [h1 os fuel pid 0 hf]
  rfl

/-- Claim C3 witness: the root of the example tree is visited first at
depth 0. -/
theorem collect_process_tree_spec_witness :
    (collect_process_tree os_c2 2 100 0).head? =
      some ⟨100, 0, false, some "terminado"⟩ :=
  (collect_process_tree_spec.2.1 os_c2 2 100 (by decide)).trans (by decide)

/-- Claim C4: a collected node is shell-like exactly when its resolved
comm is a member of the fixed shell set; an unresolved comm is never
shell-like, and names such as `python` and `mc` are not shell-like. -/
theorem collect_is_shell_iff :
    (∀ (os : OS) (fuel pid d : Nat) (n : PNode),
        n ∈ collect_process_tree os fuel pid d →
          (n.is_shell = true ↔ ∃ c, n.comm = some c ∧ c ∈ known_shells))
    ∧ is_shell_of none = false
    ∧ is_shell_of (some "python") = false
    ∧ is_shell_of (some "mc") = false := by
  refine ⟨?_, rfl, by decide, by decide⟩
  intro os fuel pid d n hn
  rw [mem_collect_is_shell os fuel pid d n hn]
  exact is_shell_of_iff n.comm

/-- Claim C4 witness: the classification applied to the collected bash
child node. -/
theorem collect_is_shell_iff_witness :
    ((⟨200, 1, true, some "bash"⟩ : PNode).is_shell = true ↔
      ∃ c, (⟨200, 1, true, some "bash"⟩ : PNode).comm = some c ∧ c ∈ known_shells) :=
  collect_is_shell_iff.1 os_c2 2 100 0 ⟨200, 1, true, some "bash"⟩ (by decide)

/-- Claim C5 counterexample: on the native `/proc` fast path the comm is
only whitespace-stripped, so a comm content containing a path separator
is returned with the separator intact, contradicting the claim that the
returned string never contains one. -/
theorem get_process_comm_c5_counterexample :
    get_process_comm os_c5 7 = some "foo/bar" ∧ '/' ∈ "foo/bar".data :=
  ⟨by decide, by decide⟩

/-- Claim C5 (amended): on the Linux `/proc` fast path `readCommandName`
returns the file content with only surrounding whitespace stripped
(directory components are not removed); on the non-Linux `ps` branch the
basename of the stripped output is returned, so that result never
contains a path separator; absence results on any lookup failure in
either branch. -/
theorem get_process_comm_spec :
    (∀ (os : OS) (pid : Nat), os.platform = .linux →
        get_process_comm os pid = (os.commFile pid).map strip)
    ∧ (∀ (os : OS) (pid : Nat) (s : String), os.platform ≠ .linux →
        get_process_comm os pid = some s → '/' ∉ s.data)
    ∧ (∀ (os : OS) (pid : Nat),
        os.commFile pid = none → os.ps pid = none → get_process_comm os pid = none) := by
  refine ⟨?_, ?_, ?_⟩
  · intro os pid hp
    unfold get_process_comm
    rw [hp]
    cases h : os.commFile pid <;> simp [h]
  · intro os pid s hp h
    rw [get_process_comm_ps os pid hp] at h
    cases hps : os.ps pid with
    | none =>
      rw [hps] at h
      exact Option.noConfusion h
    | some rcout =>
      obtain ⟨rc, out⟩ := rcout
      rw [hps] at h
      dsimp only at h
      by_cases hc : rc = 0 ∧ strip out ≠ ""
      · rw [if_pos hc] at h
        rw [Option.some_inj] at h
        rw [← h]
        exact slash_not_mem_basenameChars (strip out).data
      · rw [if_neg hc] at h
        exact Option.noConfusion h
  · intro os pid h1 h2
    unfold get_process_comm
    cases hplat : os.platform
    · rw [h1]
    · rw [h2]
    · rw [h2]

/-- Claim C5 witness: the Linux equation on a concrete OS and the
separator-freeness of a concrete `ps`-branch result. -/
theorem get_process_comm_spec_witness :
    get_process_comm os_c2 100 = (os_c2.commFile 100).map strip
    ∧ '/' ∉ "zsh".data :=
  ⟨get_process_comm_spec.1 os_c2 100 rfl,
   get_process_comm_spec.2.1 os_c5b 3 "zsh" (by decide) (by decide)⟩

/-- Claim C6: `resolveOne` dispatches on the platform: on Linux it
returns the fast `/proc` answer when present and otherwise the
environment fallback; on macOS it returns exactly the `lsof` strategy's
answer; on any other platform it behaves like Linux. -/
theorem try_get_cwd_spec :
    (∀ (os : OS) (pid : Nat) (c : String), os.platform = .linux →
        get_cwd_linux os pid = some c → try_get_cwd os pid = some c)
    ∧ (∀ (os : OS) (pid : Nat), os.platform = .linux →
        get_cwd_linux os pid = none → try_get_cwd os pid = get_pwd_from_environ os pid)
    ∧ (∀ (os : OS) (pid : Nat), os.platform = .darwin →
        try_get_cwd os pid = get_cwd_macos os pid)
    ∧ (∀ (os : OS) (pid : Nat) (c : String), os.platform = .other →
        get_cwd_linux os pid = some c → try_get_cwd os pid = some c)
    ∧ (∀ (os : OS) (pid : Nat), os.platform = .other →
        get_cwd_linux os pid = none → try_get_cwd os pid = get_pwd_from_environ os pid) := by
  refine ⟨?_, ?_, ?_, ?_, ?_⟩
  · intro os pid c hp h
    unfold try_get_cwd
    rw [hp, h]
  · intro os pid hp h
    unfold try_get_cwd
    rw [hp, h]
  · intro os pid hp
    unfold try_get_cwd
    rw [hp]
  · intro os pid c hp h
    unfold try_get_cwd
    rw [hp, h]
  · intro os pid hp h
    unfold try_get_cwd
    rw [hp, h]

/-- Claim C6 witness: the Linux fast path and the macOS dispatch on
concrete OS states. -/
theorem try_get_cwd_spec_witness :
    try_get_cwd os_c2 200 = some "/home/test"
    ∧ try_get_cwd os_c9 1 = get_cwd_macos os_c9 1 :=
  ⟨try_get_cwd_spec.1 os_c2 200 "/home/test" rfl (by decide),
   try_get_cwd_spec.2.2.1 os_c9 1 rfl⟩

/-- Claim C7: when every probe of a pid fails (missing process,
permission denial, tool failure), `resolveOne` returns absence on every
platform; and when every probe of every pid fails, the orchestrator
returns the absence marker.  Probe failures are values (`none`), not
exceptions, so nothing escapes `resolveOne` or the orchestrator. -/
theorem try_get_cwd_absent :
    (∀ (os : OS) (pid : Nat),
        os.cwdLink pid = none → os.environ pid = none →
        (∀ rc out, os.lsof pid = some (rc, out) → rc ≠ 0) →
        try_get_cwd os pid = none)
    ∧ (∀ (os : OS) (fuel pid : Nat),
        (∀ q, os.cwdLink q = none) → (∀ q, os.environ q = none) →
        (∀ q rc out, os.lsof q = some (rc, out) → rc ≠ 0) →
        get_process_cwd os fuel pid = none) := by
  have henv : ∀ (os : OS) (pid : Nat), os.environ pid = none →
      get_pwd_from_environ os pid = none := by
    intro os pid h
    unfold get_pwd_from_environ
    rw [h]
  have hmac : ∀ (os : OS) (pid : Nat),
      (∀ rc out, os.lsof pid = some (rc, out) → rc ≠ 0) →
      get_cwd_macos os pid = none := by
    intro os pid h
    cases hl : os.lsof pid with
    | none => simp [get_cwd_macos, hl]
    | some rcout =>
      obtain ⟨rc, out⟩ := rcout
      simp [get_cwd_macos, hl, h rc out hl]
  have habs : ∀ (os : OS) (pid : Nat),
      os.cwdLink pid = none → os.environ pid = none →
      (∀ rc out, os.lsof pid = some (rc, out) → rc ≠ 0) →
      try_get_cwd os pid = none := by
    intro os pid h1 h2 h3
    unfold try_get_cwd
    cases hplat : os.platform
    · unfold get_cwd_linux
      rw [h1]
      exact henv os pid h2
    · exact hmac os pid h3
    · unfold get_cwd_linux
      rw [h1]
      exact henv os pid h2
  refine ⟨habs, ?_⟩
  intro os fuel pid h1 h2 h3
  have hall : ∀ q, try_get_cwd os q = none :=
    fun q => habs os q (h1 q) (h2 q) (fun rc out => h3 q rc out)
  unfold get_process_cwd
  rw [first_truthy_eq_none os _ (fun n _ => hall n.pid)]
  exact hall pid

/-- Claim C7 witness: total resolution failure on a concrete OS. -/
theorem try_get_cwd_absent_witness :
    get_process_cwd os_absent 2 5 = none :=
  try_get_cwd_absent.2 os_absent 2 5 (fun _ => rfl) (fun _ => rfl)
    (fun _ _ _ h => Option.noConfusion h)

/-- Claim C8: the orchestrator is deterministic in the observed OS state:
two calls against the same process tree, comm names and probe answers
give the same result. -/
theorem get_process_cwd_deterministic :
    ∀ (os1 os2 : OS) (fuel pid : Nat), os1 = os2 →
      get_process_cwd os1 fuel pid = get_process_cwd os2 fuel pid := by
  intro os1 os2 fuel pid h
  rw [h]

/-- Claim C8 witness: two identical calls on the example OS agree. -/
theorem get_process_cwd_deterministic_witness :
    get_process_cwd os_c2 2 100 = get_process_cwd os_c2 2 100 :=
  get_process_cwd_deterministic os_c2 os_c2 2 100 rfl

/-- Claim C9: the candidate loop treats an empty-string cwd as absence
and skips it, while the final fallback returns the root attempt's answer
unchecked; on a macOS state whose `lsof` output is the single line `n`
the orchestrator hence returns the empty string as a found path. -/
theorem empty_cwd_skipped_then_returned :
    (∀ (os : OS) (n : PNode) (rest : List PNode),
        try_get_cwd os n.pid = some "" →
          first_truthy os (n :: rest) = first_truthy os rest)
    ∧ get_cwd_macos os_c9 1 = some ""
    ∧ get_process_cwd os_c9 2 1 = some "" := by
  refine ⟨?_, by decide, by decide⟩
  intro os n rest h
  simp only [first_truthy, h]
  simp

/-- Claim C9 witness: the loop skips the empty-string candidate of the
concrete macOS state. -/
theorem empty_cwd_skipped_then_returned_witness :
    first_truthy os_c9 [⟨1, 0, false, none⟩] = first_truthy os_c9 [] :=
  empty_cwd_skipped_then_returned.1 os_c9 ⟨1, 0, false, none⟩ [] (by decide)

/-- Claim C10: ranking is a stable sort: nodes with identical
`(depth, isShellLike)` keys keep their traversal order, so filtering the
ranked sequence by any fixed key equals filtering the input sequence. -/
theorem rank_stable :
    ∀ (l : List PNode) (d : Nat) (b : Bool),
      (rank l).filter (fun n => n.depth == d && n.is_shell == b) =
        l.filter (fun n => n.depth == d && n.is_shell == b) := by
  intro l d b
  apply rank_filter
  intro x y hx hy
  simp only [Bool.and_eq_true, beq_iff_eq] at hx hy
  obtain ⟨hxd, hxs⟩ := hx
  obtain ⟨hyd, hys⟩ := hy
  rw [key_le_iff]
  refine Or.inr ⟨by omega, ?_⟩
  cases b with
  | false => exact Or.inr hys
  | true => exact Or.inl hxs

/-- Claim C10 witness: stability applied to the ranking example. -/
theorem rank_stable_witness :
    (rank c1_input).filter (fun n => n.depth == 3 && n.is_shell == true) =
      c1_input.filter (fun n => n.depth == 3 && n.is_shell == true) :=
  rank_stable c1_input 3 true

end TerminalCwd
